import Mathlib

/-!
Shallow embedding of the generic ordered map container of `src/map_mtm.c`.

The C container is a sorted singly-linked list of key/data nodes behind a
dummy sentinel node, with an internal enumeration cursor (`map->iterator`)
and five caller-supplied capability functions (copy key, copy data, free
key, free data, compare keys).

Modelling decisions, each matching the C source:
* A map state (`MapS`) is the list of real nodes after the sentinel
  (each node a `K × Option V`; the data field is an `Option` because the
  C data pointer can be `NULL` after the Put replacement failure path),
  the `size` field (a C `int`, modelled as `Int`), and the cursor.
* The cursor (`Iter`) is either the null pointer, the sentinel, the i-th
  real node, or a dangling pointer into freed memory (which arises when
  `mapClear` frees the chain without resetting `map->iterator`).
  An index is a faithful model of the node pointer because every
  operation that changes the chain either resets the cursor or (for
  `mapClear`) is modelled as turning a node cursor into a dangling one.
* Capability functions are passed as a `Caps` record (the C map stores
  them at creation and never changes them).  The copy functions return
  `Option` (`none` = the C function returned `NULL`, an allocation
  failure).  The free functions have no value-level effect; their
  invocations are recorded as ghost `CapCall` events where a claim needs
  them (`mapPutT`).  `malloc` outcomes are explicit `Bool` parameters.
* Operations that can dereference freed or invalid memory return
  `Except Unit`; `.error ()` marks undefined behaviour in the C program.
* Public operations take `Option`-wrapped map/key/value arguments,
  mirroring the nullable C pointers, and return the updated map state
  (the C mutates in place).
-/

namespace MapMtm

/-- The `MapResult` error codes of `map_mtm.h`. -/
inductive MapResult where
  | MAP_SUCCESS
  | MAP_OUT_OF_MEMORY
  | MAP_NULL_ARGUMENT
  | MAP_ITEM_DOES_NOT_EXIST
  deriving DecidableEq, Repr

/-- Ghost record of an invocation of one of the five capability functions. -/
inductive CapCall where
  | compareCall
  | copyKeyCall
  | copyDataCall
  | freeKeyCall
  | freeDataCall
  deriving DecidableEq, Repr

/-- The value of the C `map->iterator` pointer. -/
inductive Iter where
  /-- The null pointer. -/
  | null
  /-- The dummy first node (`map->first`), where `initializeMap` leaves it. -/
  | sentinel
  /-- The i-th real node of the chain (0-based). -/
  | atNode (i : Nat)
  /-- A pointer into memory freed by `mapClear`. -/
  | dangling
  deriving DecidableEq, Repr

/-- The observable state of a `struct Map_t`: the chain of real nodes after
the dummy sentinel, the `size` field, and the `iterator` cursor.  A node's
data field is `none` when the C data pointer is `NULL`. -/
structure MapS (K V : Type) where
  iterator : Iter
  size : Int
  nodes : List (K × Option V)
  deriving DecidableEq, Repr

/-- The capability functions stored in the map at creation.  The free
functions carry no value-level information in a pure model and are
represented only by the ghost `CapCall` trace. -/
structure Caps (K V : Type) where
  copy_data : V → Option V
  copy_key : K → Option K
  compare_keys : K → K → Int

variable {K V : Type}

/-- Result of the `findPrevNode` walk: `found` is the C return value,
`idx` the number of real nodes strictly before `*prev_node`'s successor
position (so `*prev_node` is the sentinel when `idx = 0`, else node
`idx - 1`; a match, when found, is node `idx`), and `tr` the ghost trace
of `compare_keys` invocations. -/
structure WalkRes where
  found : Bool
  idx : Nat
  tr : List CapCall
  deriving DecidableEq, Repr

/-- The loop of `findPrevNode` over the real-node chain: compare the
target against each next node; stop with `found` on compare 0, stop
without on a negative compare or at the end of the chain. -/
def findPrevGo (cmp : K → K → Int) (e : K) : List (K × Option V) → WalkRes
  | [] => ⟨false, 0, []⟩
  | (k, _) :: rest =>
    let r := cmp e k
    if r = 0 then ⟨true, 0, [CapCall.compareCall]⟩
    else if r < 0 then ⟨false, 0, [CapCall.compareCall]⟩
    else
      let w := findPrevGo cmp e rest
      ⟨w.found, w.idx + 1, CapCall.compareCall :: w.tr⟩

/-- The assignment `prev_node->next->data = ...`: replace the data field of node `i`,
leaving its key and every other node untouched. -/
def setData : List (K × Option V) → Nat → Option V → List (K × Option V)
  | [], _, _ => []
  | nd :: rest, 0, d => (nd.1, d) :: rest
  | nd :: rest, n + 1, d => nd :: setData rest n d

/-- The helper `insertNewNode`: link a node immediately after the predecessor found
by the walk, i.e. at list position `i` (the walk guarantees `i ≤ length`). -/
def insertAt : List (K × Option V) → Nat → (K × Option V) → List (K × Option V)
  | l, 0, a => a :: l
  | [], _ + 1, a => [a]
  | nd :: rest, n + 1, a => nd :: insertAt rest n a

/-- The helper `createNewNode`: malloc the node (`allocOk`), then copy the key and
the data; if either copy fails the node is freed again (`freeNode` calls
`free_data` then `free_key`).  Returns the node contents and the ghost
capability-call trace. -/
def createNewNodeT (C : Caps K V) (k : K) (v : V) (allocOk : Bool) :
    Option (K × Option V) × List CapCall :=
  if !allocOk then (none, [])
  else
    match C.copy_key k, C.copy_data v with
    | some k2, some d2 =>
        (some (k2, some d2), [CapCall.copyKeyCall, CapCall.copyDataCall])
    | _, _ =>
        (none, [CapCall.copyKeyCall, CapCall.copyDataCall,
                CapCall.freeDataCall, CapCall.freeKeyCall])

/-- The function `mapPut`, with the ghost capability-call trace.
On a match the old data is freed first and the copy of the new data is
stored unconditionally (`prev_node->next->data = map->copy_data(...)`),
so a failed copy leaves the node holding a `NULL` data pointer and
returns `MAP_OUT_OF_MEMORY` without resetting the cursor.  Otherwise a
new node is created and linked after the predecessor, `size` is
incremented, and the cursor is reset. -/
def mapPutT (C : Caps K V) (m? : Option (MapS K V)) (k? : Option K)
    (v? : Option V) (allocNodeOk : Bool) :
    MapResult × Option (MapS K V) × List CapCall :=
  match m?, k?, v? with
  | some m, some k, some v =>
    let w := findPrevGo C.compare_keys k m.nodes
    if w.found then
      let tr := w.tr ++ [CapCall.freeDataCall, CapCall.copyDataCall]
      match C.copy_data v with
      | none =>
          (MapResult.MAP_OUT_OF_MEMORY,
           some { m with nodes := setData m.nodes w.idx none }, tr)
      | some d =>
          (MapResult.MAP_SUCCESS,
           some { m with nodes := setData m.nodes w.idx (some d),
                         iterator := Iter.null }, tr)
    else
      match createNewNodeT C k v allocNodeOk with
      | (none, tr2) => (MapResult.MAP_OUT_OF_MEMORY, some m, w.tr ++ tr2)
      | (some nd, tr2) =>
          (MapResult.MAP_SUCCESS,
           some { m with nodes := insertAt m.nodes w.idx nd,
                         size := m.size + 1, iterator := Iter.null },
           w.tr ++ tr2)
  | _, _, _ => (MapResult.MAP_NULL_ARGUMENT, m?, [])

/-- The function `mapPut` with the ghost trace erased. -/
def mapPut (C : Caps K V) (m? : Option (MapS K V)) (k? : Option K)
    (v? : Option V) (allocNodeOk : Bool) :
    MapResult × Option (MapS K V) :=
  let r := mapPutT C m? k? v? allocNodeOk
  (r.1, r.2.1)

/-- The function `mapRemove`: unlink and free the matching node, decrement `size`,
reset the cursor; `MAP_ITEM_DOES_NOT_EXIST` when the walk finds no match. -/
def mapRemove (C : Caps K V) (m? : Option (MapS K V)) (k? : Option K) :
    MapResult × Option (MapS K V) :=
  match m?, k? with
  | some m, some k =>
    let w := findPrevGo C.compare_keys k m.nodes
    if w.found then
      (MapResult.MAP_SUCCESS,
       some { m with nodes := m.nodes.eraseIdx w.idx,
                     size := m.size - 1, iterator := Iter.null })
    else (MapResult.MAP_ITEM_DOES_NOT_EXIST, some m)
  | _, _ => (MapResult.MAP_NULL_ARGUMENT, m?)

/-- The function `mapContains`: the walk's `found` flag; `false` on null arguments. -/
def mapContains (C : Caps K V) (m? : Option (MapS K V)) (k? : Option K) :
    Bool :=
  match m?, k? with
  | some m, some k => (findPrevGo C.compare_keys k m.nodes).found
  | _, _ => false

/-- The function `mapGet`: the matching node's internal data pointer (`none` both when
no node matches and when the stored data pointer is `NULL`). -/
def mapGet (C : Caps K V) (m? : Option (MapS K V)) (k? : Option K) :
    Option V :=
  match m?, k? with
  | some m, some k =>
    let w := findPrevGo C.compare_keys k m.nodes
    if w.found then
      match m.nodes[w.idx]? with
      | some nd => nd.2
      | none => none
    else none
  | _, _ => none

/-- The function `mapGetSize`: `-1` on a null map, else the `size` field. -/
def mapGetSize (m? : Option (MapS K V)) : Int :=
  match m? with
  | none => -1
  | some m => m.size

/-- The function `mapGetFirst`: position the cursor at the first real node and return
its key; `none` (and no cursor change) when the map is null or empty. -/
def mapGetFirst (m? : Option (MapS K V)) :
    Option K × Option (MapS K V) :=
  match m? with
  | none => (none, none)
  | some m =>
    match m.nodes with
    | [] => (none, some m)
    | (k, _) :: _ => (some k, some { m with iterator := Iter.atNode 0 })

/-- The function `mapGetNext`: advance the cursor to its successor node and return that
node's key.  A dangling cursor (left behind by `mapClear`) or a cursor
index outside the chain dereferences freed/invalid memory in the C code:
undefined behaviour, modelled as `.error ()`. -/
def mapGetNext (m? : Option (MapS K V)) :
    Except Unit (Option K × Option (MapS K V)) :=
  match m? with
  | none => Except.ok (none, none)
  | some m =>
    match m.iterator with
    | Iter.null => Except.ok (none, some m)
    | Iter.dangling => Except.error ()
    | Iter.sentinel =>
      match m.nodes with
      | [] => Except.ok (none, some m)
      | (k, _) :: _ =>
          Except.ok (some k, some { m with iterator := Iter.atNode 0 })
    | Iter.atNode i =>
      match m.nodes[i]? with
      | none => Except.error ()
      | some _ =>
        match m.nodes[i + 1]? with
        | none => Except.ok (none, some m)
        | some nd =>
            Except.ok (some nd.1, some { m with iterator := Iter.atNode (i + 1) })

/-- The function `mapClear`: free every real node and reset `size`, keeping the
sentinel.  The C function does NOT touch `map->iterator`, so a cursor
that pointed at a real node now points into freed memory (`dangling`). -/
def mapClear (m? : Option (MapS K V)) : MapResult × Option (MapS K V) :=
  match m? with
  | none => (MapResult.MAP_NULL_ARGUMENT, none)
  | some m =>
    (MapResult.MAP_SUCCESS,
     some { iterator := match m.iterator with
                        | Iter.atNode _ => Iter.dangling
                        | it => it,
            size := 0, nodes := [] })

/-- The state `initializeMap` produces: empty chain, size 0, cursor on the
sentinel. -/
def initMap : MapS K V := { iterator := Iter.sentinel, size := 0, nodes := [] }

/-- The function `mapCreate`: all five capability arguments must be non-null, then the
map record and the dummy first node are allocated (`allocMapOk`,
`allocDummyOk`).  The free-function arguments carry no value-level
information; only their presence is checked. -/
def mapCreate (cd? : Option (V → Option V)) (ck? : Option (K → Option K))
    (fd? : Option (V → Unit)) (fk? : Option (K → Unit))
    (cmp? : Option (K → K → Int)) (allocMapOk allocDummyOk : Bool) :
    Option (MapS K V) :=
  match cd?, ck?, fd?, fk?, cmp? with
  | some _, some _, some _, some _, some _ =>
    if !allocMapOk then none
    else if !allocDummyOk then none
    else some initMap
  | _, _, _, _, _ => none

/-- The helper `createNewList`: `while(length--) malloc` — returns the number of
blank nodes allocated, `none` on allocation failure.  For `length = 0`
the loop allocates nothing and the function returns `NULL`, which the
caller treats as failure; a negative `length` makes the C loop run
unboundedly, also modelled as failure. -/
def createNewList (allocOk : Bool) (length : Int) : Option Nat :=
  if length ≤ 0 then none
  else if allocOk then some length.toNat else none

/-- The copy loop of `copyList`: walk the source chain, filling one blank
node per source node with `copy_data`/`copy_key` copies.  `.error ()`
marks undefined behaviour of the C code: running out of blank nodes
dereferences `NULL`, leftover blank nodes stay uninitialized but linked,
a `NULL` source data pointer is passed to the user copy function, and —
on the copy-failure path — `freeList` walks the ENTIRE fresh chain, so
when blank nodes after the failing one are still unfilled (`n ≠ 0`,
their key/data fields indeterminate since `createNewList` sets only
`next`) the cleanup itself reads and frees indeterminate pointers.
Only a failure at the last blank node rolls back cleanly:
`.ok none` is that clean `MAP_OUT_OF_MEMORY`. -/
def copyLoop (cd : V → Option V) (ck : K → Option K) :
    List (K × Option V) → Nat → Except Unit (Option (List (K × Option V)))
  | [], 0 => Except.ok (some [])
  | [], _ + 1 => Except.error ()
  | _ :: _, 0 => Except.error ()
  | (k, d) :: rest, n + 1 =>
    match d with
    | none => Except.error ()
    | some v =>
      match cd v, ck k with
      | some v2, some k2 =>
          (copyLoop cd ck rest n).map (Option.map (fun l => (k2, some v2) :: l))
      | _, _ => if n = 0 then Except.ok none else Except.error ()

/-- The helper `copyList`: allocate `src->size` blank nodes, then run the copy loop
over the source chain.  Returns the new chain on success, `none` on
`MAP_OUT_OF_MEMORY`. -/
def copyList (C : Caps K V) (allocOk : Bool) (m : MapS K V) :
    Except Unit (Option (List (K × Option V))) :=
  match createNewList allocOk m.size with
  | none => Except.ok none
  | some slots => copyLoop C.copy_data C.copy_key m.nodes slots

/-- The function `mapCopy`: create a capability-identical empty map (two mallocs), set
its `size` directly from the source, and — when the source is non-empty —
duplicate the chain with `copyList`, destroying the partial copy and
returning `NULL` on failure.  Only on success are both cursors reset.
Returns `(source after the call, result)`. -/
def mapCopy (C : Caps K V) (m? : Option (MapS K V))
    (allocMapOk allocDummyOk allocListOk : Bool) :
    Except Unit (Option (MapS K V) × Option (MapS K V)) :=
  match m? with
  | none => Except.ok (none, none)
  | some m =>
    match mapCreate (some C.copy_data) (some C.copy_key)
        (some fun _ => ()) (some fun _ => ()) (some C.compare_keys)
        allocMapOk allocDummyOk with
    | none => Except.ok (some m, none)
    | some mc =>
      let mc := { mc with size := m.size }
      if m.size ≠ 0 then
        match copyList C allocListOk m with
        | Except.error _ => Except.error ()
        | Except.ok none => Except.ok (some m, none)
        | Except.ok (some l) =>
            Except.ok (some { m with iterator := Iter.null },
                       some { mc with nodes := l, iterator := Iter.null })
      else
        Except.ok (some { m with iterator := Iter.null },
                   some { mc with iterator := Iter.null })

/-- One full enumeration pass after `mapGetFirst`: repeatedly call
`mapGetNext`, collecting the returned keys, stopping at the first `none`
(or at undefined behaviour).  `fuel` bounds the number of calls. -/
def enumGo : Nat → Option (MapS K V) → List K
  | 0, _ => []
  | fuel + 1, m? =>
    match mapGetNext m? with
    | Except.ok (some k, m2?) => k :: enumGo fuel m2?
    | _ => []

/-- A full enumeration: `mapGetFirst`, then `mapGetNext` until `none`. -/
def runEnum (m : MapS K V) : List K :=
  match mapGetFirst (some m) with
  | (some k, m2?) => k :: enumGo m.nodes.length m2?
  | _ => []

/-- The chain invariant: keys strictly increasing under `compare_keys`. -/
def SortedNodes (cmp : K → K → Int) (l : List (K × Option V)) : Prop :=
  List.Pairwise (fun a b => cmp a.1 b.1 < 0) l

/-- The capability contract of the comparison function: a strict total
order presented as a three-way comparison (sign antisymmetry and
transitivity of the reflexive order). -/
structure LawfulCmp (cmp : K → K → Int) : Prop where
  flip : ∀ a b, cmp a b < 0 ↔ 0 < cmp b a
  le_trans : ∀ a b c, cmp a b ≤ 0 → cmp b c ≤ 0 → cmp a c ≤ 0

/-- The capability contract of the key-copy function: a copy compares
like its original. -/
def CopyKeyOk (cmp : K → K → Int) (ck : K → Option K) : Prop :=
  ∀ k k', ck k = some k' →
    (∀ x, cmp k' x = cmp k x) ∧ (∀ x, cmp x k' = cmp x k)

/-- The states of a map reachable by any sequence of public operations
from `mapCreate` (operations that return no successor state — null
arguments handled inside each definition, pure queries, undefined
behaviour — contribute nothing). -/
inductive Reach (C : Caps K V) : MapS K V → Prop where
  | create : Reach C initMap
  | put : ∀ {m m'} (k? : Option K) (v? : Option V) (a : Bool),
      Reach C m → (mapPutT C (some m) k? v? a).2.1 = some m' → Reach C m'
  | remove : ∀ {m m'} (k? : Option K),
      Reach C m → (mapRemove C (some m) k?).2 = some m' → Reach C m'
  | clear : ∀ {m m'},
      Reach C m → (mapClear (some m)).2 = some m' → Reach C m'
  | getFirst : ∀ {m m'},
      Reach C m → (mapGetFirst (some m)).2 = some m' → Reach C m'
  | getNext : ∀ {m m' k?},
      Reach C m → mapGetNext (some m) = Except.ok (k?, some m') → Reach C m'
  | copySrc : ∀ {m m' c?} (a b l : Bool),
      Reach C m → mapCopy C (some m) a b l = Except.ok (some m', c?) →
      Reach C m'
  | copyNew : ∀ {m r? c} (a b l : Bool),
      Reach C m → mapCopy C (some m) a b l = Except.ok (r?, some c) →
      Reach C c

/-- The states reachable from `mapCreate` by successful `mapPut` calls. -/
inductive PutReach (C : Caps K V) : MapS K V → Prop where
  | create : PutReach C initMap
  | put : ∀ {m m' tr} (k : K) (v : V) (a : Bool),
      PutReach C m →
      mapPutT C (some m) (some k) (some v) a =
        (MapResult.MAP_SUCCESS, some m', tr) →
      PutReach C m'

/-- The data-structure invariant of claim C3: sorted chain and accurate
`size` field. -/
def Inv (C : Caps K V) (m : MapS K V) : Prop :=
  SortedNodes C.compare_keys m.nodes ∧ m.size = (m.nodes.length : Int)

/-- A concrete integer comparator for witnesses. -/
def intCmp : Int → Int → Int :=
  fun a b => if a < b then -1 else if b < a then 1 else 0

/-- Concrete integer capabilities (identity copies) for witnesses. -/
def intCaps : Caps Int Int :=
  { copy_data := fun v => some v, copy_key := fun k => some k,
    compare_keys := intCmp }

/-- Integer capabilities whose data-copy function fails on the value 20,
modelling an allocation failure inside the user copy function. -/
def failCaps : Caps Int Int :=
  { copy_data := fun v => if v = 20 then none else some v,
    copy_key := fun k => some k, compare_keys := intCmp }

/-! ### Derived facts about a lawful comparator -/

variable {cmp : K → K → Int}

theorem LawfulCmp.refl_zero (hc : LawfulCmp cmp) (a : K) : cmp a a = 0 := by
  have h := hc.flip a a
  by_contra hne
  rcases lt_or_gt_of_ne hne with h1 | h1
  · exact absurd (h.mp h1) (by omega)
  · exact absurd (h.mpr h1) (by omega)

theorem LawfulCmp.zero_symm (hc : LawfulCmp cmp) {a b : K}
    (h : cmp a b = 0) : cmp b a = 0 := by
  by_contra hne
  rcases lt_or_gt_of_ne hne with h1 | h1
  · have := (hc.flip b a).mp h1
    omega
  · have := (hc.flip a b).mpr h1
    omega

theorem LawfulCmp.lt_trans' (hc : LawfulCmp cmp) {a b c : K}
    (h1 : cmp a b < 0) (h2 : cmp b c < 0) : cmp a c < 0 := by
  have hle : cmp a c ≤ 0 := hc.le_trans a b c h1.le h2.le
  rcases lt_or_eq_of_le hle with h | h
  · exact h
  · exfalso
    have hca : cmp c a = 0 := hc.zero_symm h
    have hcb : cmp c b ≤ 0 := hc.le_trans c a b hca.le h1.le
    have := (hc.flip b c).mp h2
    omega

theorem LawfulCmp.zero_lt_trans (hc : LawfulCmp cmp) {a b c : K}
    (h1 : cmp a b = 0) (h2 : cmp b c < 0) : cmp a c < 0 := by
  have hle : cmp a c ≤ 0 := hc.le_trans a b c h1.le h2.le
  rcases lt_or_eq_of_le hle with h | h
  · exact h
  · exfalso
    have hca : cmp c a = 0 := hc.zero_symm h
    have hba : cmp b a = 0 := hc.zero_symm h1
    have hcb : cmp c b ≤ 0 :=
      hc.le_trans c a b hca.le (by omega)
    have := (hc.flip b c).mp h2
    omega

theorem LawfulCmp.lt_zero_trans (hc : LawfulCmp cmp) {a b c : K}
    (h1 : cmp a b < 0) (h2 : cmp b c = 0) : cmp a c < 0 := by
  have hle : cmp a c ≤ 0 := hc.le_trans a b c h1.le h2.le
  rcases lt_or_eq_of_le hle with h | h
  · exact h
  · exfalso
    have hca : cmp c a = 0 := hc.zero_symm h
    have hba : cmp b a ≤ 0 := hc.le_trans b c a h2.le hca.le
    have := (hc.flip a b).mp h1
    omega

/-! ### Facts about the findPrevNode walk -/

theorem findPrevGo_idx_le (cmp : K → K → Int) (e : K) :
    ∀ l : List (K × Option V), (findPrevGo cmp e l).idx ≤ l.length := by
  intro l
  induction l with
  | nil => simp [findPrevGo]
  | cons hd tl ih =>
    by_cases h0 : cmp e hd.1 = 0
    · simp [findPrevGo, h0]
    · by_cases hlt : cmp e hd.1 < 0
      · simp [findPrevGo, h0, hlt]
      · simp only [findPrevGo, if_neg h0, if_neg hlt, List.length_cons]
        omega

theorem findPrevGo_prefix_pos (cmp : K → K → Int) (e : K) :
    ∀ (l : List (K × Option V)) (j : Nat), j < (findPrevGo cmp e l).idx →
      ∀ nd, l[j]? = some nd → 0 < cmp e nd.1 := by
  intro l
  induction l with
  | nil => intro j h nd _; simp [findPrevGo] at h
  | cons hd tl ih =>
    intro j h nd hnd
    by_cases h0 : cmp e hd.1 = 0
    · simp [findPrevGo, h0] at h
    · by_cases hlt : cmp e hd.1 < 0
      · simp [findPrevGo, h0, hlt] at h
      · simp only [findPrevGo, if_neg h0, if_neg hlt] at h
        cases j with
        | zero =>
          simp only [List.getElem?_cons_zero, Option.some.injEq] at hnd
          subst hnd
          omega
        | succ j' =>
          simp only [List.getElem?_cons_succ] at hnd
          exact ih j' (by omega) nd hnd

theorem findPrevGo_found_match (cmp : K → K → Int) (e : K) :
    ∀ l : List (K × Option V), (findPrevGo cmp e l).found = true →
      ∃ nd, l[(findPrevGo cmp e l).idx]? = some nd ∧ cmp e nd.1 = 0 := by
  intro l
  induction l with
  | nil => intro h; simp [findPrevGo] at h
  | cons hd tl ih =>
    intro h
    by_cases h0 : cmp e hd.1 = 0
    · exact ⟨hd, by simp [findPrevGo, h0], h0⟩
    · by_cases hlt : cmp e hd.1 < 0
      · simp [findPrevGo, h0, hlt] at h
      · simp only [findPrevGo, if_neg h0, if_neg hlt] at h ⊢
        obtain ⟨nd, hnd, hz⟩ := ih h
        exact ⟨nd, by simpa using hnd, hz⟩

theorem findPrevGo_stop (cmp : K → K → Int) (e : K) :
    ∀ l : List (K × Option V), (findPrevGo cmp e l).found = false →
      (findPrevGo cmp e l).idx = l.length ∨
        ∃ nd, l[(findPrevGo cmp e l).idx]? = some nd ∧ cmp e nd.1 < 0 := by
  intro l
  induction l with
  | nil => intro _; left; simp [findPrevGo]
  | cons hd tl ih =>
    intro h
    by_cases h0 : cmp e hd.1 = 0
    · simp [findPrevGo, h0] at h
    · by_cases hlt : cmp e hd.1 < 0
      · right
        exact ⟨hd, by simp [findPrevGo, h0, hlt], hlt⟩
      · simp only [findPrevGo, if_neg h0, if_neg hlt] at h ⊢
        rcases ih h with h1 | ⟨nd, hnd, hz⟩
        · left; simp [h1]
        · right; exact ⟨nd, by simpa using hnd, hz⟩

theorem findPrevGo_tr_compare (cmp : K → K → Int) (e : K) :
    ∀ l : List (K × Option V), ∀ c ∈ (findPrevGo cmp e l).tr,
      c = CapCall.compareCall := by
  intro l
  induction l with
  | nil => intro c hc; simp [findPrevGo] at hc
  | cons hd tl ih =>
    intro c hc
    by_cases h0 : cmp e hd.1 = 0
    · simp [findPrevGo, h0] at hc
      exact hc
    · by_cases hlt : cmp e hd.1 < 0
      · simp [findPrevGo, h0, hlt] at hc
        exact hc
      · simp only [findPrevGo, if_neg h0, if_neg hlt, List.mem_cons] at hc
        rcases hc with h | h
        · exact h
        · exact ih c h

theorem findPrevGo_found_iff (hc : LawfulCmp cmp) (e : K) :
    ∀ l : List (K × Option V), SortedNodes cmp l →
      ((findPrevGo cmp e l).found = true ↔ ∃ nd ∈ l, cmp e nd.1 = 0) := by
  intro l
  induction l with
  | nil => intro _; simp [findPrevGo]
  | cons hd tl ih =>
    intro hs
    rw [SortedNodes, List.pairwise_cons] at hs
    by_cases h0 : cmp e hd.1 = 0
    · simp [findPrevGo, h0]
    · by_cases hlt : cmp e hd.1 < 0
      · simp only [findPrevGo, h0, hlt, if_true, if_false, List.mem_cons]
        constructor
        · intro h; exact absurd h (by simp)
        · rintro ⟨nd, hnd | hnd, hz⟩
          · exact absurd (hnd ▸ hz) h0
          · exact absurd hz
              (by have := hc.lt_trans' hlt (hs.1 nd hnd); omega)
      · simp only [findPrevGo, if_neg h0, if_neg hlt, List.mem_cons]
        rw [ih hs.2]
        constructor
        · rintro ⟨nd, hnd, hz⟩; exact ⟨nd, Or.inr hnd, hz⟩
        · rintro ⟨nd, hnd | hnd, hz⟩
          · exact absurd (hnd ▸ hz) h0
          · exact ⟨nd, hnd, hz⟩

/-! ### Facts about setData and insertAt -/

theorem map_fst_setData (d : Option V) :
    ∀ (l : List (K × Option V)) (n : Nat),
      (setData l n d).map Prod.fst = l.map Prod.fst := by
  intro l
  induction l with
  | nil => intro n; simp [setData]
  | cons hd tl ih =>
    intro n
    cases n with
    | zero => simp [setData]
    | succ n' => simp [setData, ih n']

theorem length_setData (d : Option V) (l : List (K × Option V)) (n : Nat) :
    (setData l n d).length = l.length := by
  have h := map_fst_setData d l n
  have h1 := congrArg List.length h
  simpa using h1

theorem getElem?_setData_self (d : Option V) :
    ∀ (l : List (K × Option V)) (n : Nat) (nd : K × Option V),
      l[n]? = some nd → (setData l n d)[n]? = some (nd.1, d) := by
  intro l
  induction l with
  | nil => intro n nd h; simp at h
  | cons hd tl ih =>
    intro n nd h
    cases n with
    | zero =>
      simp only [List.getElem?_cons_zero, Option.some.injEq] at h
      subst h; simp [setData]
    | succ n' =>
      simp only [List.getElem?_cons_succ] at h
      simpa [setData] using ih n' nd h

theorem getElem?_setData_ne (d : Option V) :
    ∀ (l : List (K × Option V)) (n j : Nat), j ≠ n →
      (setData l n d)[j]? = l[j]? := by
  intro l
  induction l with
  | nil => intro n j _; simp [setData]
  | cons hd tl ih =>
    intro n j hj
    cases n with
    | zero =>
      cases j with
      | zero => exact absurd rfl hj
      | succ j' => simp [setData]
    | succ n' =>
      cases j with
      | zero => simp [setData]
      | succ j' => simpa [setData] using ih n' j' (by omega)

theorem mem_setData (d : Option V) :
    ∀ (l : List (K × Option V)) (n : Nat) (b : K × Option V),
      b ∈ setData l n d → ∃ a ∈ l, b.1 = a.1 := by
  intro l
  induction l with
  | nil => intro n b h; simp [setData] at h
  | cons hd tl ih =>
    intro n b h
    cases n with
    | zero =>
      simp only [setData, List.mem_cons] at h
      rcases h with h | h
      · exact ⟨hd, List.mem_cons_self _ _, by simp [h]⟩
      · exact ⟨b, List.mem_cons_of_mem _ h, rfl⟩
    | succ n' =>
      simp only [setData, List.mem_cons] at h
      rcases h with h | h
      · exact ⟨hd, List.mem_cons_self _ _, by simp [h]⟩
      · obtain ⟨a, ha, hab⟩ := ih n' b h
        exact ⟨a, List.mem_cons_of_mem _ ha, hab⟩

theorem sortedNodes_setData (d : Option V) :
    ∀ (l : List (K × Option V)) (n : Nat), SortedNodes cmp l →
      SortedNodes cmp (setData l n d) := by
  intro l
  induction l with
  | nil => intro n _; simp [setData, SortedNodes]
  | cons hd tl ih =>
    intro n hs
    rw [SortedNodes, List.pairwise_cons] at hs
    cases n with
    | zero =>
      rw [setData, SortedNodes, List.pairwise_cons]
      exact ⟨fun b hb => hs.1 b hb, hs.2⟩
    | succ n' =>
      rw [setData, SortedNodes, List.pairwise_cons]
      refine ⟨fun b hb => ?_, ih n' hs.2⟩
      obtain ⟨a, ha, hab⟩ := mem_setData d tl n' b hb
      rw [hab]
      exact hs.1 a ha

theorem length_insertAt (a : K × Option V) :
    ∀ (l : List (K × Option V)) (n : Nat), n ≤ l.length →
      (insertAt l n a).length = l.length + 1 := by
  intro l
  induction l with
  | nil =>
    intro n h
    cases n with
    | zero => simp [insertAt]
    | succ n' => simp [insertAt]
  | cons hd tl ih =>
    intro n h
    cases n with
    | zero => simp [insertAt]
    | succ n' => simpa [insertAt] using ih n' (by simpa using h)

theorem mem_insertAt (a : K × Option V) :
    ∀ (l : List (K × Option V)) (n : Nat) (b : K × Option V),
      b ∈ insertAt l n a → b = a ∨ b ∈ l := by
  intro l
  induction l with
  | nil =>
    intro n b h
    cases n with
    | zero => simpa [insertAt] using h
    | succ n' => simpa [insertAt] using h
  | cons hd tl ih =>
    intro n b h
    cases n with
    | zero =>
      simp only [insertAt, List.mem_cons] at h
      rcases h with h | h | h
      · exact Or.inl h
      · exact Or.inr (List.mem_cons.mpr (Or.inl h))
      · exact Or.inr (List.mem_cons.mpr (Or.inr h))
    | succ n' =>
      simp only [insertAt, List.mem_cons] at h
      rcases h with h | h
      · exact Or.inr (List.mem_cons.mpr (Or.inl h))
      · rcases ih n' b h with h | h
        · exact Or.inl h
        · exact Or.inr (List.mem_cons.mpr (Or.inr h))

/-- Inserting at the position found by the walk keeps the chain strictly
sorted, provided the inserted key compares like the searched key. -/
theorem sorted_insertAt (hc : LawfulCmp cmp) (e : K) (k2 : K)
    (hk1 : ∀ x, cmp k2 x = cmp e x) (hk2 : ∀ x, cmp x k2 = cmp x e)
    (d : Option V) :
    ∀ l : List (K × Option V), SortedNodes cmp l →
      (findPrevGo cmp e l).found = false →
      SortedNodes cmp (insertAt l (findPrevGo cmp e l).idx (k2, d)) := by
  intro l
  induction l with
  | nil =>
    intro _ _
    simp [findPrevGo, insertAt, SortedNodes]
  | cons hd tl ih =>
    intro hs hw
    rw [SortedNodes, List.pairwise_cons] at hs
    by_cases h0 : cmp e hd.1 = 0
    · simp [findPrevGo, h0] at hw
    · by_cases hlt : cmp e hd.1 < 0
      · simp only [findPrevGo, if_neg h0, if_true, hlt]
        rw [insertAt, SortedNodes, List.pairwise_cons]
        refine ⟨fun b hb => ?_, List.pairwise_cons.mpr hs⟩
        rcases List.mem_cons.mp hb with h | h
        · rw [h, hk1]; exact hlt
        · rw [hk1]
          exact hc.lt_trans' hlt (hs.1 b h)
      · have hw2 : (findPrevGo cmp e tl).found = false := by
          simpa [findPrevGo, if_neg h0, if_neg hlt] using hw
        simp only [findPrevGo, if_neg h0, if_neg hlt]
        rw [insertAt, SortedNodes, List.pairwise_cons]
        refine ⟨fun b hb => ?_, ih hs.2 hw2⟩
        rcases mem_insertAt (k2, d) tl _ b hb with h | h
        · rw [h]
          show cmp hd.1 k2 < 0
          rw [hk2]
          exact (hc.flip hd.1 e).mpr (by omega)
        · exact hs.1 b h

/-! ### Facts about the copy loop -/

/-- The node-by-node relation a successful copy establishes. -/
def CopyRel (cd : V → Option V) (ck : K → Option K)
    (s t : K × Option V) : Prop :=
  ∃ v, s.2 = some v ∧ ∃ k2, ck s.1 = some k2 ∧
    ∃ v2, cd v = some v2 ∧ t = (k2, some v2)

theorem copyLoop_ok_forall₂ (cd : V → Option V) (ck : K → Option K) :
    ∀ (src : List (K × Option V)) (n : Nat) (out : List (K × Option V)),
      copyLoop cd ck src n = Except.ok (some out) →
      List.Forall₂ (CopyRel cd ck) src out := by
  intro src
  induction src with
  | nil =>
    intro n out h
    cases n with
    | zero =>
      simp only [copyLoop, Except.ok.injEq, Option.some.injEq] at h
      rw [← h]
      exact List.Forall₂.nil
    | succ n' => simp [copyLoop] at h
  | cons hd tl ih =>
    intro n out h
    cases n with
    | zero => simp [copyLoop] at h
    | succ n' =>
      obtain ⟨k, d⟩ := hd
      cases d with
      | none => simp [copyLoop] at h
      | some v =>
        simp only [copyLoop] at h
        cases hcd : cd v with
        | none =>
          rw [hcd] at h
          by_cases hn : n' = 0 <;> simp [hn] at h
        | some v2 =>
          cases hck : ck k with
          | none =>
            rw [hcd, hck] at h
            by_cases hn : n' = 0 <;> simp [hn] at h
          | some k2 =>
            rw [hcd, hck] at h
            cases hrec : copyLoop cd ck tl n' with
            | error u => rw [hrec] at h; simp [Except.map] at h
            | ok o =>
              rw [hrec] at h
              cases o with
              | none => simp [Except.map] at h
              | some out' =>
                simp only [Except.map, Option.map, Except.ok.injEq,
                  Option.some.injEq] at h
                rw [← h]
                exact List.Forall₂.cons
                  ⟨v, rfl, k2, hck, v2, hcd, rfl⟩ (ih n' out' hrec)

theorem forall₂_exists_left {R : (K × Option V) → (K × Option V) → Prop} :
    ∀ {l l' : List (K × Option V)}, List.Forall₂ R l l' →
      ∀ y ∈ l', ∃ x ∈ l, R x y := by
  intro l l' h
  induction h with
  | nil => intro y hy; simp at hy
  | cons hab _ ih =>
    intro y hy
    rcases List.mem_cons.mp hy with h | h
    · exact ⟨_, List.mem_cons_self _ _, h ▸ hab⟩
    · obtain ⟨x, hx, hr⟩ := ih y h
      exact ⟨x, List.mem_cons_of_mem _ hx, hr⟩

/-- A successful copy of a sorted chain is sorted, because every copied
key compares like its original. -/
theorem sorted_of_copy {ck : K → Option K}
    (hck : CopyKeyOk cmp ck) {cd : V → Option V} :
    ∀ {src out : List (K × Option V)},
      List.Forall₂ (CopyRel cd ck) src out →
      SortedNodes cmp src → SortedNodes cmp out := by
  intro src out h
  induction h with
  | nil => intro _; exact List.Pairwise.nil
  | @cons a b l l' hab hrest ih =>
    intro hs
    rw [SortedNodes, List.pairwise_cons] at hs
    rw [SortedNodes, List.pairwise_cons]
    refine ⟨fun y hy => ?_, ih hs.2⟩
    obtain ⟨x, hx, hr⟩ := forall₂_exists_left hrest y hy
    obtain ⟨v, _, k2, hk2, v2, _, hb⟩ := hab
    obtain ⟨w, _, k3, hk3, w2, _, hy'⟩ := hr
    have h1 := (hck _ _ hk2).1
    have h2 := (hck _ _ hk3).2
    rw [hb, hy']
    show cmp k2 k3 < 0
    rw [h1 k3, h2 a.1]
    exact hs.1 x hx

/-! ### The enumeration calls change only the cursor -/

theorem mapGetFirst_state {m m' : MapS K V}
    (h : (mapGetFirst (some m)).2 = some m') :
    m'.nodes = m.nodes ∧ m'.size = m.size := by
  cases hn : m.nodes with
  | nil =>
    simp only [mapGetFirst, hn, Option.some.injEq] at h
    rw [← h]
    exact ⟨hn, rfl⟩
  | cons hd tl =>
    obtain ⟨k, d⟩ := hd
    simp only [mapGetFirst, hn, Option.some.injEq] at h
    rw [← h]
    exact ⟨rfl, rfl⟩

theorem mapGetNext_state {m m' : MapS K V} {k? : Option K}
    (h : mapGetNext (some m) = Except.ok (k?, some m')) :
    m'.nodes = m.nodes ∧ m'.size = m.size := by
  cases hit : m.iterator with
  | null =>
    simp only [mapGetNext, hit, Except.ok.injEq, Prod.mk.injEq,
      Option.some.injEq] at h
    rw [← h.2]
    exact ⟨rfl, rfl⟩
  | dangling => simp [mapGetNext, hit] at h
  | sentinel =>
    cases hn : m.nodes with
    | nil =>
      simp only [mapGetNext, hit, hn, Except.ok.injEq, Prod.mk.injEq,
        Option.some.injEq] at h
      rw [← h.2]
      exact ⟨hn, rfl⟩
    | cons hd tl =>
      obtain ⟨k, d⟩ := hd
      simp only [mapGetNext, hit, hn, Except.ok.injEq, Prod.mk.injEq,
        Option.some.injEq] at h
      rw [← h.2]
      exact ⟨rfl, rfl⟩
  | atNode i =>
    cases hg : m.nodes[i]? with
    | none => simp [mapGetNext, hit, hg] at h
    | some nd =>
      cases hg2 : m.nodes[i + 1]? with
      | none =>
        simp only [mapGetNext, hit, hg, hg2, Except.ok.injEq, Prod.mk.injEq,
          Option.some.injEq] at h
        rw [← h.2]
        exact ⟨rfl, rfl⟩
      | some nd2 =>
        simp only [mapGetNext, hit, hg, hg2, Except.ok.injEq, Prod.mk.injEq,
          Option.some.injEq] at h
        rw [← h.2]
        exact ⟨rfl, rfl⟩

/-! ### Every public operation preserves the data-structure invariant -/

theorem inv_mapPut (C : Caps K V) (hc : LawfulCmp C.compare_keys)
    (hck : CopyKeyOk C.compare_keys C.copy_key)
    {m m' : MapS K V} (k? : Option K) (v? : Option V) (a : Bool)
    (hm : Inv C m) (h : (mapPutT C (some m) k? v? a).2.1 = some m') :
    Inv C m' := by
  cases k? with
  | none =>
    simp only [mapPutT, Option.some.injEq] at h
    rw [← h]; exact hm
  | some k =>
    cases v? with
    | none =>
      simp only [mapPutT, Option.some.injEq] at h
      rw [← h]; exact hm
    | some v =>
      by_cases hf : (findPrevGo C.compare_keys k m.nodes).found = true
      · cases hcd : C.copy_data v with
        | none =>
          simp only [mapPutT, hf, if_true, hcd, Option.some.injEq] at h
          rw [← h]
          refine ⟨sortedNodes_setData none m.nodes _ hm.1, ?_⟩
          show m.size = ((setData m.nodes _ none).length : Int)
          rw [length_setData]
          exact hm.2
        | some d =>
          simp only [mapPutT, hf, if_true, hcd, Option.some.injEq] at h
          rw [← h]
          refine ⟨sortedNodes_setData (some d) m.nodes _ hm.1, ?_⟩
          show m.size = ((setData m.nodes _ (some d)).length : Int)
          rw [length_setData]
          exact hm.2
      · rw [Bool.not_eq_true] at hf
        cases ha : a with
        | false =>
          subst ha
          simp [mapPutT, hf, createNewNodeT] at h
          cases h
          exact hm
        | true =>
          subst ha
          cases hckk : C.copy_key k with
          | none =>
            simp [mapPutT, hf, createNewNodeT, hckk] at h
            cases h
            exact hm
          | some k2 =>
            cases hcd : C.copy_data v with
            | none =>
              simp [mapPutT, hf, createNewNodeT, hckk, hcd] at h
              cases h
              exact hm
            | some d2 =>
              simp [mapPutT, hf, createNewNodeT, hckk, hcd] at h
              cases h
              constructor
              · exact sorted_insertAt hc k k2 (hck k k2 hckk).1
                  (hck k k2 hckk).2 (some d2) m.nodes hm.1 hf
              · show m.size + 1 = ((insertAt m.nodes _ (k2, some d2)).length : Int)
                rw [length_insertAt (k2, some d2) m.nodes _
                  (findPrevGo_idx_le C.compare_keys k m.nodes)]
                have := hm.2
                push_cast
                omega

theorem inv_mapRemove (C : Caps K V)
    {m m' : MapS K V} (k? : Option K)
    (hm : Inv C m) (h : (mapRemove C (some m) k?).2 = some m') :
    Inv C m' := by
  cases k? with
  | none =>
    simp only [mapRemove, Option.some.injEq] at h
    rw [← h]; exact hm
  | some k =>
    by_cases hf : (findPrevGo C.compare_keys k m.nodes).found = true
    · simp only [mapRemove, hf, if_true, Option.some.injEq] at h
      rw [← h]
      obtain ⟨nd, hnd, _⟩ := findPrevGo_found_match C.compare_keys k m.nodes hf
      have hidx : (findPrevGo C.compare_keys k m.nodes).idx < m.nodes.length := by
        by_contra hcon
        rw [List.getElem?_eq_none (by omega)] at hnd
        exact Option.noConfusion hnd
      constructor
      · exact hm.1.sublist (List.eraseIdx_sublist m.nodes _)
      · show m.size - 1 = ((m.nodes.eraseIdx _).length : Int)
        rw [List.length_eraseIdx]
        simp only [hidx, if_true]
        have := hm.2
        omega
    · rw [Bool.not_eq_true] at hf
      simp only [mapRemove, hf, Bool.false_eq_true, if_false,
        Option.some.injEq] at h
      rw [← h]; exact hm

theorem inv_mapClear (C : Caps K V) {m m' : MapS K V}
    (h : (mapClear (some m)).2 = some m') : Inv C m' := by
  simp only [mapClear, Option.some.injEq] at h
  rw [← h]
  exact ⟨List.Pairwise.nil, rfl⟩

theorem mapCopy_src_state (C : Caps K V) {m : MapS K V}
    {r c? : Option (MapS K V)} (a b l : Bool)
    (h : mapCopy C (some m) a b l = Except.ok (r, c?)) :
    r = some m ∨ r = some { m with iterator := Iter.null } := by
  cases a with
  | false =>
    simp only [mapCopy, mapCreate, Bool.not_false, if_true,
      Except.ok.injEq, Prod.mk.injEq] at h
    exact Or.inl h.1.symm
  | true =>
    cases b with
    | false =>
      simp only [mapCopy, mapCreate, Bool.not_true, Bool.false_eq_true,
        if_false, Bool.not_false, if_true, Except.ok.injEq,
        Prod.mk.injEq] at h
      exact Or.inl h.1.symm
    | true =>
      by_cases hz : m.size = 0
      · simp only [mapCopy, mapCreate, Bool.not_true, Bool.false_eq_true,
          if_false, hz, ne_eq, not_true_eq_false, Except.ok.injEq,
          Prod.mk.injEq] at h
        right
        rw [hz]
        exact h.1.symm
      · cases hcl : copyList C l m with
        | error u =>
          simp only [mapCopy, mapCreate, Bool.not_true, Bool.false_eq_true,
            if_false, hz, ne_eq, not_false_eq_true, if_true, hcl] at h
          exact Except.noConfusion h
        | ok o =>
          cases o with
          | none =>
            simp only [mapCopy, mapCreate, Bool.not_true, Bool.false_eq_true,
              if_false, hz, ne_eq, not_false_eq_true, if_true, hcl,
              Except.ok.injEq, Prod.mk.injEq] at h
            exact Or.inl h.1.symm
          | some lst =>
            simp only [mapCopy, mapCreate, Bool.not_true, Bool.false_eq_true,
              if_false, hz, ne_eq, not_false_eq_true, if_true, hcl,
              Except.ok.injEq, Prod.mk.injEq] at h
            exact Or.inr h.1.symm

theorem inv_mapCopy_new (C : Caps K V)
    (hck : CopyKeyOk C.compare_keys C.copy_key)
    {m c : MapS K V} {r : Option (MapS K V)} (a b l : Bool)
    (hm : Inv C m) (h : mapCopy C (some m) a b l = Except.ok (r, some c)) :
    Inv C c := by
  cases a with
  | false => simp [mapCopy, mapCreate] at h
  | true =>
    cases b with
    | false => simp [mapCopy, mapCreate] at h
    | true =>
      by_cases hz : m.size = 0
      · simp only [mapCopy, mapCreate, Bool.not_true, Bool.false_eq_true,
          if_false, hz, ne_eq, not_true_eq_false, Except.ok.injEq,
          Prod.mk.injEq, Option.some.injEq] at h
        rw [← h.2]
        exact ⟨List.Pairwise.nil, by simp [initMap, hz]⟩
      · cases hcl : copyList C l m with
        | error u =>
          simp only [mapCopy, mapCreate, Bool.not_true, Bool.false_eq_true,
            if_false, hz, ne_eq, not_false_eq_true, if_true, hcl] at h
          exact Except.noConfusion h
        | ok o =>
          cases o with
          | none =>
            simp only [mapCopy, mapCreate, Bool.not_true, Bool.false_eq_true,
              if_false, hz, ne_eq, not_false_eq_true, if_true, hcl,
              Except.ok.injEq, Prod.mk.injEq] at h
            exact Option.noConfusion h.2
          | some lst =>
            simp only [mapCopy, mapCreate, Bool.not_true, Bool.false_eq_true,
              if_false, hz, ne_eq, not_false_eq_true, if_true, hcl,
              Except.ok.injEq, Prod.mk.injEq, Option.some.injEq] at h
            have hloop : ∃ slots, copyLoop C.copy_data C.copy_key m.nodes slots
                = Except.ok (some lst) := by
              unfold copyList at hcl
              cases hcn : createNewList l m.size with
              | none => rw [hcn] at hcl; simp at hcl
              | some slots => rw [hcn] at hcl; exact ⟨slots, hcl⟩
            obtain ⟨slots, hloop⟩ := hloop
            have hf2 := copyLoop_ok_forall₂ C.copy_data C.copy_key
              m.nodes slots lst hloop
            rw [← h.2]
            constructor
            · exact sorted_of_copy hck hf2 hm.1
            · show m.size = (lst.length : Int)
              rw [← hf2.length_eq]
              exact hm.2

/-- The data-structure invariant of claim C3 holds in every reachable
state, assuming the capability contract (lawful comparator, comparison-
preserving key copies). -/
theorem reach_inv (C : Caps K V) (hc : LawfulCmp C.compare_keys)
    (hck : CopyKeyOk C.compare_keys C.copy_key)
    {m : MapS K V} (hm : Reach C m) : Inv C m := by
  induction hm with
  | create => exact ⟨List.Pairwise.nil, rfl⟩
  | put k? v? a _ h ih => exact inv_mapPut C hc hck k? v? a ih h
  | remove k? _ h ih => exact inv_mapRemove C k? ih h
  | clear _ h _ => exact inv_mapClear C h
  | getFirst _ h ih =>
    obtain ⟨h1, h2⟩ := mapGetFirst_state h
    exact ⟨h1 ▸ ih.1, by rw [h1, h2]; exact ih.2⟩
  | getNext _ h ih =>
    obtain ⟨h1, h2⟩ := mapGetNext_state h
    exact ⟨h1 ▸ ih.1, by rw [h1, h2]; exact ih.2⟩
  | copySrc a b l _ h ih =>
    rcases mapCopy_src_state _ a b l h with h1 | h1
    · injection h1 with h2
      rw [h2]
      exact ih
    · injection h1 with h2
      rw [h2]
      exact ⟨ih.1, ih.2⟩
  | copyNew a b l _ h ih => exact inv_mapCopy_new C hck a b l ih h

/-! ### The enumeration pass returns exactly the chain's keys -/

theorem enumGo_spec :
    ∀ (fuel : Nat) (m : MapS K V) (i : Nat),
      m.iterator = Iter.atNode i → m.nodes.length ≤ i + 1 + fuel →
      enumGo fuel (some m) = (m.nodes.map Prod.fst).drop (i + 1) := by
  intro fuel
  induction fuel with
  | zero =>
    intro m i hit hlen
    rw [enumGo]
    symm
    rw [List.drop_eq_nil_iff]
    simpa using hlen
  | succ f ih =>
    intro m i hit hlen
    cases hg : m.nodes[i]? with
    | none =>
      have hi : m.nodes.length ≤ i := by
        by_contra hcon
        rw [List.getElem?_eq_getElem (by omega)] at hg
        exact Option.noConfusion hg
      simp only [enumGo, mapGetNext, hit, hg]
      symm
      rw [List.drop_eq_nil_iff]
      simp only [List.length_map]
      omega
    | some nd =>
      cases hg2 : m.nodes[i + 1]? with
      | none =>
        have hi2 : m.nodes.length ≤ i + 1 := by
          by_contra hcon
          rw [List.getElem?_eq_getElem (by omega)] at hg2
          exact Option.noConfusion hg2
        simp only [enumGo, mapGetNext, hit, hg, hg2]
        symm
        rw [List.drop_eq_nil_iff]
        simp only [List.length_map]
        omega
      | some nd2 =>
        have hi2 : i + 1 < m.nodes.length := by
          by_contra hcon
          rw [List.getElem?_eq_none (by omega)] at hg2
          exact Option.noConfusion hg2
        simp only [enumGo, mapGetNext, hit, hg, hg2]
        rw [ih { m with iterator := Iter.atNode (i + 1) } (i + 1) rfl
          (by show m.nodes.length ≤ i + 1 + 1 + f; omega)]
        show nd2.1 :: (m.nodes.map Prod.fst).drop (i + 1 + 1) =
          (m.nodes.map Prod.fst).drop (i + 1)
        conv_rhs => rw [List.drop_eq_getElem_cons (by simpa using hi2)]
        congr 1
        have hm : (m.nodes.map Prod.fst)[i + 1]? = some nd2.1 := by
          rw [List.getElem?_map, hg2]
          rfl
        rw [List.getElem?_eq_getElem (by simpa using hi2)] at hm
        injection hm with hm
        exact hm.symm

theorem runEnum_eq_keys (m : MapS K V) :
    runEnum m = m.nodes.map Prod.fst := by
  cases hn : m.nodes with
  | nil => simp [runEnum, mapGetFirst, hn]
  | cons hd tl =>
    obtain ⟨k, d⟩ := hd
    simp only [runEnum, mapGetFirst, hn]
    rw [enumGo_spec ((k, d) :: tl).length
      { m with iterator := Iter.atNode 0, nodes := (k, d) :: tl } 0 rfl
      (by simp)]
    simp

/-! ### In a sorted chain every match sits at the walk's stop index -/

theorem sorted_match_at_idx (hc : LawfulCmp cmp) {l : List (K × Option V)}
    (hs : SortedNodes cmp l) {e : K}
    (hf : (findPrevGo cmp e l).found = true) :
    ∀ (j : Nat) (nd : K × Option V), l[j]? = some nd → cmp e nd.1 = 0 →
      j = (findPrevGo cmp e l).idx := by
  intro j nd hj hz
  obtain ⟨nd0, hnd0, hz0⟩ := findPrevGo_found_match cmp e l hf
  by_contra hne
  have hj2 : j < l.length := by
    by_contra hcon
    rw [List.getElem?_eq_none (by omega)] at hj
    exact Option.noConfusion hj
  have hidx : (findPrevGo cmp e l).idx < l.length := by
    by_contra hcon
    rw [List.getElem?_eq_none (by omega)] at hnd0
    exact Option.noConfusion hnd0
  rcases Nat.lt_or_ge j (findPrevGo cmp e l).idx with hlt | hge
  · have := findPrevGo_prefix_pos cmp e l j hlt nd hj
    omega
  · have hgt : (findPrevGo cmp e l).idx < j := by omega
    have hpair := (List.pairwise_iff_getElem.mp hs) _ _ hidx hj2 hgt
    rw [List.getElem?_eq_getElem hidx] at hnd0
    injection hnd0 with hnd0
    rw [List.getElem?_eq_getElem hj2] at hj
    injection hj with hj
    rw [← hnd0] at hz0
    rw [← hj] at hz
    have := hc.zero_lt_trans hz0 hpair
    omega

/-- After removing the matching node of a sorted chain, no node matches. -/
theorem no_match_after_erase (hc : LawfulCmp cmp) {l : List (K × Option V)}
    (hs : SortedNodes cmp l) {e : K}
    (hf : (findPrevGo cmp e l).found = true) :
    ∀ nd ∈ l.eraseIdx (findPrevGo cmp e l).idx, cmp e nd.1 ≠ 0 := by
  intro nd hnd hz
  obtain ⟨j, hj, hjg⟩ := List.mem_eraseIdx_iff_getElem?.mp hnd
  exact hj (sorted_match_at_idx hc hs hf j nd hjg hz)

/-! ### The integer capabilities satisfy the capability contract -/

theorem lawful_intCmp : LawfulCmp intCmp := by
  constructor
  · intro a b
    simp only [intCmp]
    split_ifs <;> omega
  · intro a b c
    simp only [intCmp]
    split_ifs <;> omega

theorem intCaps_lawful : LawfulCmp intCaps.compare_keys := lawful_intCmp

theorem intCaps_copyKeyOk : CopyKeyOk intCaps.compare_keys intCaps.copy_key := by
  intro k k' h
  injection h with h
  subst h
  exact ⟨fun x => rfl, fun x => rfl⟩

theorem failCaps_lawful : LawfulCmp failCaps.compare_keys := lawful_intCmp

theorem putReach_reach (C : Caps K V) {m : MapS K V} (h : PutReach C m) :
    Reach C m := by
  induction h with
  | create => exact Reach.create
  | put k v a _ hput ih =>
    exact Reach.put (some k) (some v) a ih (by rw [hput])

/-! ### The claims -/

/-- C1 (code bug evidence).  The claim says any Put/Remove/Clear/Copy
call invalidates an in-progress enumeration so that the next GetNext
returns none.  The code violates this for `mapClear`: unlike `mapPut`,
`mapRemove` and `mapCopy`, `mapClear` never resets `map->iterator`, so
after GetFirst positions the cursor on a real node, Clear frees that
node and leaves the cursor dangling; the next GetNext then dereferences
freed memory (undefined behaviour, modelled as `.error ()`) instead of
returning none.  This run exhibits it: create, Put 1↦10, GetFirst,
Clear, GetNext. -/
theorem c1_clear_leaves_cursor_dangling :
    mapCreate (some intCaps.copy_data) (some intCaps.copy_key)
        (some fun _ => ()) (some fun _ => ()) (some intCaps.compare_keys)
        true true = some (initMap : MapS Int Int) ∧
    (mapPutT intCaps (some initMap) (some 1) (some 10) true).2.1 =
      some ⟨Iter.null, 1, [(1, some 10)]⟩ ∧
    mapGetFirst (some (⟨Iter.null, 1, [(1, some 10)]⟩ : MapS Int Int)) =
      (some 1, some ⟨Iter.atNode 0, 1, [(1, some 10)]⟩) ∧
    mapClear (some (⟨Iter.atNode 0, 1, [(1, some 10)]⟩ : MapS Int Int)) =
      (MapResult.MAP_SUCCESS, some ⟨Iter.dangling, 0, []⟩) ∧
    (⟨Iter.dangling, 0, []⟩ : MapS Int Int).iterator ≠ Iter.null ∧
    mapGetNext (some (⟨Iter.dangling, 0, []⟩ : MapS Int Int)) =
      Except.error () :=
  ⟨rfl, rfl, rfl, rfl, by decide, rfl⟩

/-- C2 (code bug evidence).  The claim says that when the value copy of
a Put on an existing key fails, the map is left with the old value still
in place.  The code instead frees the old value first and stores the
failed copy's NULL: on the map {1 ↦ 10}, Put(1, 20) with a failing
data-copy returns MAP_OUT_OF_MEMORY and leaves the node as (1, NULL) —
the old value 10 is gone. -/
theorem c2_put_replace_oom_loses_old_value :
    mapPutT failCaps (some (⟨Iter.null, 1, [(1, some 10)]⟩ : MapS Int Int))
        (some 1) (some 20) true =
      (MapResult.MAP_OUT_OF_MEMORY,
       some ⟨Iter.null, 1, [(1, none)]⟩,
       [CapCall.compareCall, CapCall.freeDataCall, CapCall.copyDataCall]) ∧
    (⟨Iter.null, 1, [(1, none)]⟩ : MapS Int Int).nodes ≠ [(1, some 10)] :=
  ⟨rfl, by decide⟩

/-- C3: in every map state reachable from Create by public operations
(under the capability contract: lawful comparator, comparison-preserving
key copies), the chain of real nodes is strictly increasing under
compare-keys, no two nodes compare equal, and the size field equals the
number of real nodes. -/
theorem c3_reachable_invariant (C : Caps K V)
    (hc : LawfulCmp C.compare_keys)
    (hck : CopyKeyOk C.compare_keys C.copy_key)
    (m : MapS K V) (hm : Reach C m) :
    List.Pairwise (fun a b : K × Option V => C.compare_keys a.1 b.1 < 0)
      m.nodes ∧
    List.Pairwise (fun a b : K × Option V => C.compare_keys a.1 b.1 ≠ 0)
      m.nodes ∧
    m.size = (m.nodes.length : Int) := by
  obtain ⟨h1, h2⟩ := reach_inv C hc hck hm
  exact ⟨h1, List.Pairwise.imp (fun h => by omega) h1, h2⟩

theorem c3_witness :
    List.Pairwise (fun a b : Int × Option Int =>
      intCaps.compare_keys a.1 b.1 < 0)
      (⟨Iter.null, 2, [(1, some 10), (2, some 20)]⟩ : MapS Int Int).nodes ∧
    List.Pairwise (fun a b : Int × Option Int =>
      intCaps.compare_keys a.1 b.1 ≠ 0)
      (⟨Iter.null, 2, [(1, some 10), (2, some 20)]⟩ : MapS Int Int).nodes ∧
    (⟨Iter.null, 2, [(1, some 10), (2, some 20)]⟩ : MapS Int Int).size =
      ((⟨Iter.null, 2, [(1, some 10), (2, some 20)]⟩ : MapS Int Int).nodes.length : Int) :=
  c3_reachable_invariant intCaps intCaps_lawful intCaps_copyKeyOk
    ⟨Iter.null, 2, [(1, some 10), (2, some 20)]⟩
    (Reach.put (some 2) (some 20) true
      (Reach.put (some 1) (some 10) true Reach.create rfl) rfl)

/-- C4: after any sequence of successful Puts on a freshly created map,
the full GetFirst/GetNext enumeration yields keys in strictly increasing
compare-keys order, with no two keys comparing equal, and yields exactly
`size` keys before stopping. -/
theorem c4_enumeration_sorted (C : Caps K V)
    (hc : LawfulCmp C.compare_keys)
    (hck : CopyKeyOk C.compare_keys C.copy_key)
    (m : MapS K V) (hm : PutReach C m) :
    List.Pairwise (fun a b : K => C.compare_keys a b < 0) (runEnum m) ∧
    List.Pairwise (fun a b : K => C.compare_keys a b ≠ 0) (runEnum m) ∧
    ((runEnum m).length : Int) = m.size := by
  obtain ⟨h1, h2⟩ := reach_inv C hc hck (putReach_reach C hm)
  rw [runEnum_eq_keys]
  have hp : List.Pairwise (fun a b : K => C.compare_keys a b < 0)
      (m.nodes.map Prod.fst) := by
    rw [List.pairwise_map]
    exact h1
  refine ⟨hp, List.Pairwise.imp (fun h => by omega) hp, ?_⟩
  simp only [List.length_map]
  omega

theorem c4_witness :
    List.Pairwise (fun a b : Int => intCaps.compare_keys a b < 0)
      (runEnum (⟨Iter.null, 2, [(1, some 10), (3, some 30)]⟩ : MapS Int Int)) ∧
    List.Pairwise (fun a b : Int => intCaps.compare_keys a b ≠ 0)
      (runEnum (⟨Iter.null, 2, [(1, some 10), (3, some 30)]⟩ : MapS Int Int)) ∧
    ((runEnum (⟨Iter.null, 2, [(1, some 10), (3, some 30)]⟩ : MapS Int Int)).length : Int) =
      (⟨Iter.null, 2, [(1, some 10), (3, some 30)]⟩ : MapS Int Int).size :=
  c4_enumeration_sorted intCaps intCaps_lawful intCaps_copyKeyOk
    ⟨Iter.null, 2, [(1, some 10), (3, some 30)]⟩
    (PutReach.put 3 30 true
      (PutReach.put 1 10 true PutReach.create rfl) rfl)

/-- C9: Create fails (returns no map) whenever any of the five
capability arguments is absent; with all five present and both
allocations succeeding it returns the empty map, whose size is 0 and on
which GetFirst immediately returns none. -/
theorem c9_create (cd? : Option (V → Option V)) (ck? : Option (K → Option K))
    (fd? : Option (V → Unit)) (fk? : Option (K → Unit))
    (cmp? : Option (K → K → Int)) (a b : Bool) :
    ((cd? = none ∨ ck? = none ∨ fd? = none ∨ fk? = none ∨ cmp? = none) →
      mapCreate cd? ck? fd? fk? cmp? a b = (none : Option (MapS K V))) ∧
    (cd?.isSome → ck?.isSome → fd?.isSome → fk?.isSome → cmp?.isSome →
      mapCreate cd? ck? fd? fk? cmp? true true = some (initMap : MapS K V) ∧
      (initMap : MapS K V).size = 0 ∧
      (mapGetFirst (some (initMap : MapS K V))).1 = none) := by
  constructor
  · intro h
    cases cd? with
    | none => rfl
    | some cd =>
      cases ck? with
      | none => rfl
      | some ck =>
        cases fd? with
        | none => rfl
        | some fd =>
          cases fk? with
          | none => rfl
          | some fk =>
            cases cmp? with
            | none => rfl
            | some c0 => simp at h
  · intro h1 h2 h3 h4 h5
    cases cd? with
    | none => exact absurd h1 (by simp)
    | some cd =>
      cases ck? with
      | none => exact absurd h2 (by simp)
      | some ck =>
        cases fd? with
        | none => exact absurd h3 (by simp)
        | some fd =>
          cases fk? with
          | none => exact absurd h4 (by simp)
          | some fk =>
            cases cmp? with
            | none => exact absurd h5 (by simp)
            | some c0 => exact ⟨rfl, rfl, rfl⟩

theorem c9_witness :
    mapCreate (none : Option (Int → Option Int)) (some fun k => some k)
      (some fun _ => ()) (some fun _ => ()) (some intCmp) true true =
      (none : Option (MapS Int Int)) ∧
    (mapCreate (some fun v => some v) (some fun k => some k)
      (some fun _ => ()) (some fun _ => ()) (some intCmp) true true =
      some (initMap : MapS Int Int) ∧
    (initMap : MapS Int Int).size = 0 ∧
    (mapGetFirst (some (initMap : MapS Int Int))).1 = none) :=
  ⟨(c9_create none (some fun k => some k) (some fun _ => ())
      (some fun _ => ()) (some intCmp) true true).1 (Or.inl rfl),
   (c9_create (some fun v => some v) (some fun k => some k)
      (some fun _ => ()) (some fun _ => ()) (some intCmp) true true).2
      rfl rfl rfl rfl rfl⟩

/-- C5: a successful Put whose key compares equal to some node replaces
that node's value and leaves size unchanged; a successful Put with a key
matching no node increases size by exactly 1. -/
theorem c5_put_size (C : Caps K V) (hc : LawfulCmp C.compare_keys)
    (m m' : MapS K V) (k : K) (v : V) (a : Bool)
    (hs : SortedNodes C.compare_keys m.nodes)
    (hput : mapPut C (some m) (some k) (some v) a =
      (MapResult.MAP_SUCCESS, some m')) :
    ((∃ nd ∈ m.nodes, C.compare_keys k nd.1 = 0) →
      m'.size = m.size ∧
      ∃ i nd d, m.nodes[i]? = some nd ∧ C.compare_keys k nd.1 = 0 ∧
        C.copy_data v = some d ∧ m'.nodes = setData m.nodes i (some d)) ∧
    ((¬ ∃ nd ∈ m.nodes, C.compare_keys k nd.1 = 0) →
      m'.size = m.size + 1) := by
  simp only [mapPut, Prod.mk.injEq] at hput
  obtain ⟨h1, h2⟩ := hput
  constructor
  · intro hex
    have hf : (findPrevGo C.compare_keys k m.nodes).found = true :=
      (findPrevGo_found_iff hc k m.nodes hs).mpr hex
    cases hcd : C.copy_data v with
    | none => simp [mapPutT, hf, hcd] at h1
    | some d =>
      simp [mapPutT, hf, hcd] at h2
      obtain ⟨nd, hnd, hz⟩ := findPrevGo_found_match C.compare_keys k m.nodes hf
      cases h2
      exact ⟨rfl, (findPrevGo C.compare_keys k m.nodes).idx, nd, d,
        hnd, hz, rfl, rfl⟩
  · intro hnone
    have hf : (findPrevGo C.compare_keys k m.nodes).found = false := by
      cases hfb : (findPrevGo C.compare_keys k m.nodes).found with
      | false => rfl
      | true =>
        exact absurd ((findPrevGo_found_iff hc k m.nodes hs).mp hfb) hnone
    cases ha : a with
    | false =>
      subst ha
      simp [mapPutT, hf, createNewNodeT] at h1
    | true =>
      subst ha
      cases hck2 : C.copy_key k with
      | none => simp [mapPutT, hf, createNewNodeT, hck2] at h1
      | some k2 =>
        cases hcd : C.copy_data v with
        | none => simp [mapPutT, hf, createNewNodeT, hck2, hcd] at h1
        | some d2 =>
          simp [mapPutT, hf, createNewNodeT, hck2, hcd] at h2
          cases h2
          rfl

theorem c5_witness :
    ((∃ nd ∈ (⟨Iter.null, 1, [(1, some 10)]⟩ : MapS Int Int).nodes,
        intCaps.compare_keys 1 nd.1 = 0) →
      (⟨Iter.null, 1, [(1, some 30)]⟩ : MapS Int Int).size =
        (⟨Iter.null, 1, [(1, some 10)]⟩ : MapS Int Int).size ∧
      ∃ i nd d,
        (⟨Iter.null, 1, [(1, some 10)]⟩ : MapS Int Int).nodes[i]? = some nd ∧
        intCaps.compare_keys 1 nd.1 = 0 ∧
        intCaps.copy_data 30 = some d ∧
        (⟨Iter.null, 1, [(1, some 30)]⟩ : MapS Int Int).nodes =
          setData (⟨Iter.null, 1, [(1, some 10)]⟩ : MapS Int Int).nodes i (some d)) ∧
    ((¬ ∃ nd ∈ (⟨Iter.null, 1, [(1, some 10)]⟩ : MapS Int Int).nodes,
        intCaps.compare_keys 1 nd.1 = 0) →
      (⟨Iter.null, 1, [(1, some 30)]⟩ : MapS Int Int).size =
        (⟨Iter.null, 1, [(1, some 10)]⟩ : MapS Int Int).size + 1) :=
  c5_put_size intCaps intCaps_lawful
    ⟨Iter.null, 1, [(1, some 10)]⟩ ⟨Iter.null, 1, [(1, some 30)]⟩
    1 30 true (by unfold SortedNodes; decide) rfl

/-- C6: Remove returns MAP_NULL_ARGUMENT on a null map or key; with no
matching node it returns MAP_ITEM_DOES_NOT_EXIST and leaves the map
unchanged; with a matching node it succeeds, decrements size by one, and
a subsequent Contains on the same key returns false. -/
theorem c6_remove (C : Caps K V) (hc : LawfulCmp C.compare_keys)
    (m : MapS K V) (k : K)
    (hs : SortedNodes C.compare_keys m.nodes) :
    (∀ k? : Option K,
      mapRemove C none k? = (MapResult.MAP_NULL_ARGUMENT, none)) ∧
    (mapRemove C (some m) none = (MapResult.MAP_NULL_ARGUMENT, some m)) ∧
    ((¬ ∃ nd ∈ m.nodes, C.compare_keys k nd.1 = 0) →
      mapRemove C (some m) (some k) =
        (MapResult.MAP_ITEM_DOES_NOT_EXIST, some m)) ∧
    ((∃ nd ∈ m.nodes, C.compare_keys k nd.1 = 0) →
      ∃ m', mapRemove C (some m) (some k) = (MapResult.MAP_SUCCESS, some m') ∧
        m'.size = m.size - 1 ∧
        mapContains C (some m') (some k) = false) := by
  refine ⟨?_, rfl, ?_, ?_⟩
  · intro k?; cases k? <;> rfl
  · intro hnone
    have hf : (findPrevGo C.compare_keys k m.nodes).found = false := by
      cases hfb : (findPrevGo C.compare_keys k m.nodes).found with
      | false => rfl
      | true =>
        exact absurd ((findPrevGo_found_iff hc k m.nodes hs).mp hfb) hnone
    simp [mapRemove, hf]
  · intro hex
    have hf : (findPrevGo C.compare_keys k m.nodes).found = true :=
      (findPrevGo_found_iff hc k m.nodes hs).mpr hex
    refine ⟨{ m with
        nodes := m.nodes.eraseIdx (findPrevGo C.compare_keys k m.nodes).idx,
        size := m.size - 1, iterator := Iter.null }, ?_, rfl, ?_⟩
    · simp [mapRemove, hf]
    · show (findPrevGo C.compare_keys k
        (m.nodes.eraseIdx (findPrevGo C.compare_keys k m.nodes).idx)).found = false
      cases hfb : (findPrevGo C.compare_keys k
          (m.nodes.eraseIdx (findPrevGo C.compare_keys k m.nodes).idx)).found with
      | false => rfl
      | true =>
        obtain ⟨nd, hnd, hz⟩ := findPrevGo_found_match C.compare_keys k _ hfb
        exact absurd hz
          (no_match_after_erase hc hs hf nd (List.getElem?_mem hnd))

theorem c6_witness :
    (∀ k? : Option Int,
      mapRemove intCaps none k? = (MapResult.MAP_NULL_ARGUMENT, none)) ∧
    (mapRemove intCaps (some (⟨Iter.null, 2, [(1, some 10), (3, some 30)]⟩ : MapS Int Int)) none =
      (MapResult.MAP_NULL_ARGUMENT, some ⟨Iter.null, 2, [(1, some 10), (3, some 30)]⟩)) ∧
    ((¬ ∃ nd ∈ (⟨Iter.null, 2, [(1, some 10), (3, some 30)]⟩ : MapS Int Int).nodes,
        intCaps.compare_keys 3 nd.1 = 0) →
      mapRemove intCaps (some ⟨Iter.null, 2, [(1, some 10), (3, some 30)]⟩) (some 3) =
        (MapResult.MAP_ITEM_DOES_NOT_EXIST, some ⟨Iter.null, 2, [(1, some 10), (3, some 30)]⟩)) ∧
    ((∃ nd ∈ (⟨Iter.null, 2, [(1, some 10), (3, some 30)]⟩ : MapS Int Int).nodes,
        intCaps.compare_keys 3 nd.1 = 0) →
      ∃ m', mapRemove intCaps (some ⟨Iter.null, 2, [(1, some 10), (3, some 30)]⟩) (some 3) =
          (MapResult.MAP_SUCCESS, some m') ∧
        m'.size = (⟨Iter.null, 2, [(1, some 10), (3, some 30)]⟩ : MapS Int Int).size - 1 ∧
        mapContains intCaps (some m') (some 3) = false) :=
  c6_remove intCaps intCaps_lawful
    ⟨Iter.null, 2, [(1, some 10), (3, some 30)]⟩ 3 (by unfold SortedNodes; decide)

/-- C7: a successful Copy returns a map whose size field is copied
directly from the source, whose chain is a node-by-node fresh
capability-copy of the source chain (each copied key comparing equal to
its original, each value a copy-image), and the source map is returned
unchanged except for its cursor being reset; no structure is shared, so
mutating either map cannot affect the other. -/
theorem c7_copy (C : Caps K V) (hc : LawfulCmp C.compare_keys)
    (hck : CopyKeyOk C.compare_keys C.copy_key)
    (m c : MapS K V) (r : Option (MapS K V)) (a b l : Bool)
    (hlen : m.size = (m.nodes.length : Int))
    (h : mapCopy C (some m) a b l = Except.ok (r, some c)) :
    r = some { m with iterator := Iter.null } ∧
    c.size = m.size ∧
    c.nodes.length = m.nodes.length ∧
    List.Forall₂ (CopyRel C.copy_data C.copy_key) m.nodes c.nodes ∧
    List.Forall₂ (fun s t : K × Option V => C.compare_keys t.1 s.1 = 0)
      m.nodes c.nodes := by
  cases a with
  | false => simp [mapCopy, mapCreate] at h
  | true =>
    cases b with
    | false => simp [mapCopy, mapCreate] at h
    | true =>
      by_cases hz : m.size = 0
      · have hnil : m.nodes = [] := by
          have h0 : m.nodes.length = 0 := by omega
          exact List.length_eq_zero.mp h0
        simp only [mapCopy, mapCreate, Bool.not_true, Bool.false_eq_true,
          if_false, hz, ne_eq, not_true_eq_false, Except.ok.injEq,
          Prod.mk.injEq, Option.some.injEq] at h
        obtain ⟨hr, hcc⟩ := h
        subst hcc
        refine ⟨?_, by rw [hz], by simp [hnil, initMap], ?_, ?_⟩
        · rw [← hr, hz]
        · rw [hnil]; exact List.Forall₂.nil
        · rw [hnil]; exact List.Forall₂.nil
      · cases hcl : copyList C l m with
        | error u =>
          simp only [mapCopy, mapCreate, Bool.not_true, Bool.false_eq_true,
            if_false, hz, ne_eq, not_false_eq_true, if_true, hcl] at h
          exact Except.noConfusion h
        | ok o =>
          cases o with
          | none =>
            simp only [mapCopy, mapCreate, Bool.not_true, Bool.false_eq_true,
              if_false, hz, ne_eq, not_false_eq_true, if_true, hcl,
              Except.ok.injEq, Prod.mk.injEq] at h
            exact Option.noConfusion h.2
          | some lst =>
            simp only [mapCopy, mapCreate, Bool.not_true, Bool.false_eq_true,
              if_false, hz, ne_eq, not_false_eq_true, if_true, hcl,
              Except.ok.injEq, Prod.mk.injEq, Option.some.injEq] at h
            obtain ⟨hr, hcc⟩ := h
            subst hcc
            have hloop : ∃ slots, copyLoop C.copy_data C.copy_key m.nodes slots
                = Except.ok (some lst) := by
              unfold copyList at hcl
              cases hcn : createNewList l m.size with
              | none => rw [hcn] at hcl; simp at hcl
              | some slots => rw [hcn] at hcl; exact ⟨slots, hcl⟩
            obtain ⟨slots, hloop⟩ := hloop
            have hf2 := copyLoop_ok_forall₂ C.copy_data C.copy_key
              m.nodes slots lst hloop
            refine ⟨hr.symm, rfl, hf2.length_eq.symm, hf2, ?_⟩
            refine List.Forall₂.imp ?_ hf2
            intro s t hrel
            obtain ⟨v, _, k2, hk2, v2, _, ht⟩ := hrel
            rw [ht]
            show C.compare_keys k2 s.1 = 0
            rw [(hck _ _ hk2).1 s.1]
            exact hc.refl_zero s.1

theorem c7_witness :
    (some (⟨Iter.null, 1, [(1, some 10)]⟩ : MapS Int Int) : Option (MapS Int Int)) =
      some { (⟨Iter.atNode 0, 1, [(1, some 10)]⟩ : MapS Int Int) with
             iterator := Iter.null } ∧
    (⟨Iter.null, 1, [(1, some 10)]⟩ : MapS Int Int).size =
      (⟨Iter.atNode 0, 1, [(1, some 10)]⟩ : MapS Int Int).size ∧
    (⟨Iter.null, 1, [(1, some 10)]⟩ : MapS Int Int).nodes.length =
      (⟨Iter.atNode 0, 1, [(1, some 10)]⟩ : MapS Int Int).nodes.length ∧
    List.Forall₂ (CopyRel intCaps.copy_data intCaps.copy_key)
      (⟨Iter.atNode 0, 1, [(1, some 10)]⟩ : MapS Int Int).nodes
      (⟨Iter.null, 1, [(1, some 10)]⟩ : MapS Int Int).nodes ∧
    List.Forall₂ (fun s t : Int × Option Int => intCaps.compare_keys t.1 s.1 = 0)
      (⟨Iter.atNode 0, 1, [(1, some 10)]⟩ : MapS Int Int).nodes
      (⟨Iter.null, 1, [(1, some 10)]⟩ : MapS Int Int).nodes :=
  c7_copy intCaps intCaps_lawful intCaps_copyKeyOk
    ⟨Iter.atNode 0, 1, [(1, some 10)]⟩ ⟨Iter.null, 1, [(1, some 10)]⟩
    (some ⟨Iter.null, 1, [(1, some 10)]⟩) true true true (by decide) rfl

/-- C8 (code bug evidence).  The claim says any single allocation or
key/value copy failure makes the whole Copy fail cleanly, with no
partial map observable and the source unchanged.  The C rollback itself
is broken on the mid-chain case: when a copy fails before the last
blank node, `freeList` (called from `copyList`) walks the entire fresh
chain and passes the indeterminate key/data fields of the
still-unfilled blank nodes (allocated by `createNewList`, which sets
only `next`) to `free_data`/`free_key` — undefined behaviour, so the
program guarantees nothing on exactly the path the claim is about.
Concretely on the source {1 ↦ 20, 2 ↦ 30} with a data-copy that fails
on 20: the first of the two blank nodes fails to fill and the cleanup
frees the second, uninitialized one (modelled `.error ()`).  Only a
failure at the last blank node rolls back cleanly, as the second
conjunct shows for {1 ↦ 10, 2 ↦ 20} failing on 20. -/
theorem c8_copy_mid_chain_failure_ub :
    mapCopy failCaps
        (some (⟨Iter.null, 2, [(1, some 20), (2, some 30)]⟩ : MapS Int Int))
        true true true = Except.error () ∧
    mapCopy failCaps
        (some (⟨Iter.null, 2, [(1, some 10), (2, some 20)]⟩ : MapS Int Int))
        true true true =
      Except.ok (some (⟨Iter.null, 2, [(1, some 10), (2, some 20)]⟩ : MapS Int Int),
        none) :=
  ⟨rfl, rfl⟩

/-- C10: a Put whose key compares equal to an existing node only
replaces that node's stored data: the node's stored key and every other
node are unchanged, no node is linked or unlinked (the key sequence and
length are identical), and neither the copy-key nor the free-key
capability is invoked on this path. -/
theorem c10_put_replace_frame (C : Caps K V) (hc : LawfulCmp C.compare_keys)
    (m : MapS K V) (k : K) (v : V) (a : Bool)
    (hs : SortedNodes C.compare_keys m.nodes)
    (hex : ∃ nd ∈ m.nodes, C.compare_keys k nd.1 = 0) :
    ∃ m' i nd,
      (mapPutT C (some m) (some k) (some v) a).2.1 = some m' ∧
      m.nodes[i]? = some nd ∧ C.compare_keys k nd.1 = 0 ∧
      m'.nodes.map Prod.fst = m.nodes.map Prod.fst ∧
      m'.nodes.length = m.nodes.length ∧
      m'.nodes[i]? = some (nd.1, C.copy_data v) ∧
      (∀ j : Nat, j ≠ i → m'.nodes[j]? = m.nodes[j]?) ∧
      ∀ e ∈ (mapPutT C (some m) (some k) (some v) a).2.2,
        e ≠ CapCall.copyKeyCall ∧ e ≠ CapCall.freeKeyCall := by
  have hf : (findPrevGo C.compare_keys k m.nodes).found = true :=
    (findPrevGo_found_iff hc k m.nodes hs).mpr hex
  obtain ⟨nd, hnd, hz⟩ := findPrevGo_found_match C.compare_keys k m.nodes hf
  have htr : ∀ e ∈ (findPrevGo C.compare_keys k m.nodes).tr ++
      [CapCall.freeDataCall, CapCall.copyDataCall],
      e ≠ CapCall.copyKeyCall ∧ e ≠ CapCall.freeKeyCall := by
    intro e he
    rcases List.mem_append.mp he with h | h
    · rw [findPrevGo_tr_compare C.compare_keys k m.nodes e h]
      exact ⟨by simp, by simp⟩
    · simp only [List.mem_cons, List.not_mem_nil, or_false] at h
      rcases h with h | h <;> subst h <;> exact ⟨by simp, by simp⟩
  cases hcd : C.copy_data v with
  | none =>
    refine ⟨{ m with
        nodes := setData m.nodes (findPrevGo C.compare_keys k m.nodes).idx none },
      (findPrevGo C.compare_keys k m.nodes).idx, nd,
      by simp [mapPutT, hf, hcd], hnd, hz,
      map_fst_setData none m.nodes _, length_setData none m.nodes _,
      getElem?_setData_self none m.nodes _ nd hnd,
      fun j hj => getElem?_setData_ne none m.nodes _ j hj, ?_⟩
    intro e he
    apply htr
    simpa [mapPutT, hf, hcd] using he
  | some d =>
    refine ⟨{ m with
        nodes := setData m.nodes (findPrevGo C.compare_keys k m.nodes).idx (some d),
        iterator := Iter.null },
      (findPrevGo C.compare_keys k m.nodes).idx, nd,
      by simp [mapPutT, hf, hcd], hnd, hz,
      map_fst_setData (some d) m.nodes _, length_setData (some d) m.nodes _,
      getElem?_setData_self (some d) m.nodes _ nd hnd,
      fun j hj => getElem?_setData_ne (some d) m.nodes _ j hj, ?_⟩
    intro e he
    apply htr
    simpa [mapPutT, hf, hcd] using he

theorem c10_witness :
    ∃ m' i nd,
      (mapPutT intCaps (some (⟨Iter.null, 1, [(1, some 10)]⟩ : MapS Int Int))
        (some 1) (some 30) true).2.1 = some m' ∧
      (⟨Iter.null, 1, [(1, some 10)]⟩ : MapS Int Int).nodes[i]? = some nd ∧
      intCaps.compare_keys 1 nd.1 = 0 ∧
      m'.nodes.map Prod.fst =
        (⟨Iter.null, 1, [(1, some 10)]⟩ : MapS Int Int).nodes.map Prod.fst ∧
      m'.nodes.length =
        (⟨Iter.null, 1, [(1, some 10)]⟩ : MapS Int Int).nodes.length ∧
      m'.nodes[i]? = some (nd.1, intCaps.copy_data 30) ∧
      (∀ j : Nat, j ≠ i →
        m'.nodes[j]? = (⟨Iter.null, 1, [(1, some 10)]⟩ : MapS Int Int).nodes[j]?) ∧
      ∀ e ∈ (mapPutT intCaps (some (⟨Iter.null, 1, [(1, some 10)]⟩ : MapS Int Int))
          (some 1) (some 30) true).2.2,
        e ≠ CapCall.copyKeyCall ∧ e ≠ CapCall.freeKeyCall :=
  c10_put_replace_frame intCaps intCaps_lawful
    ⟨Iter.null, 1, [(1, some 10)]⟩ 1 30 true (by unfold SortedNodes; decide)
    (by decide)

end MapMtm
